import Mathlib

/-!
Verification of the volatility estimation and anomaly-scoring pipeline of the
anomaly-scanner repository, as a shallow embedding in Lean 4.

Python floats are modelled as real numbers (for the realized-volatility
estimator, whose formulas involve `log` and `sqrt`) and as rationals (for the
purely arithmetical scoring, selection, ranking and fetching logic, keeping
those definitions computable).  `None` becomes `Option.none`.  A Python
function that can raise is embedded with result type `Except Unit _`, where
`.error ()` marks an uncaught exception.  Network calls are embedded by
passing the responses in as an explicit oracle argument.
-/

namespace AnomalyScanner

/-! ## realized.py : realized_vol_annualized_from_closes

The estimator receives the list of closes (entries may be missing) and a
window size, and produces the annualized realized volatility of the last
`window` log-returns, or `none` on insufficient/invalid data.  Python's
`ZeroDivisionError` (reachable when `window ≤ 1`) is modelled as `.error ()`.
-/

/-- Embedding of the log-return loop of `realized_vol_annualized_from_closes`
(`for i in range(1, len(closes))`): given the previous close and the remaining
closes, produce the list of log-returns, or `none` as soon as one close of a
consecutive pair is missing or non-positive (the Python loop returns `None`
immediately in that case). -/
noncomputable def retsAux : Option ℝ → List (Option ℝ) → Option (List ℝ)
  | _, [] => some []
  | none, _ :: _ => none
  | some _, none :: _ => none
  | some x0, some x1 :: rest =>
    if x0 ≤ 0 ∨ x1 ≤ 0 then none
    else (retsAux (some x1) rest).map (fun l => Real.log (x1 / x0) :: l)

/-- The full log-return pass over the close series (the loop body runs once per
consecutive pair; a series of length ≤ 1 yields the empty return list). -/
noncomputable def computeRets : List (Option ℝ) → Option (List ℝ)
  | [] => some []
  | c :: rest => retsAux c rest

/-- The tail of `realized_vol_annualized_from_closes` operating on the window
slice `w`: the insufficiency check, then `mean`, `var` and the annualized
square root.  The `.error ()` branch models Python's `ZeroDivisionError`:
`mean` divides by `len(w)` and `var` divides by `len(w) - 1`, so the call
raises exactly when the slice has length 0 or 1 (possible only when
`window ≤ 1`, since otherwise `len(w) < window` has already returned). -/
noncomputable def rvWindow (w : List ℝ) (window : ℕ) : Except Unit (Option ℝ) :=
  if w.length < window then .ok none
  else if w.length = 0 ∨ w.length = 1 then .error ()
  else
    .ok (some (Real.sqrt
      ((w.map (fun x => (x - w.sum / (w.length : ℝ)) ^ 2)).sum
          / ((w.length - 1 : ℕ) : ℝ) * 252)))

/-- The slice `w = rets[-window:]` followed by the window computation.  The
Python slice is the whole list when `window = 0` (since `-0 == 0`) and the
last `window` elements otherwise. -/
noncomputable def rvFromRets (rets : List ℝ) (window : ℕ) : Except Unit (Option ℝ) :=
  rvWindow (if window = 0 then rets else rets.drop (rets.length - window)) window

/-- Embedding of `realized_vol_annualized_from_closes` from `src/realized.py`:
length guard, log-return pass (which fails on any invalid consecutive pair),
then the trailing-window variance and annualization. -/
noncomputable def realized_vol_annualized_from_closes
    (closes : List (Option ℝ)) (window : ℕ) : Except Unit (Option ℝ) :=
  if closes.length < window + 1 then .ok none
  else
    match computeRets closes with
    | none => .ok none
    | some rets => rvFromRets rets window

/-- The log-returns of a series of plain (present) closes, starting from a
given previous close: reference form used to state what the estimator
computes on all-positive input. -/
noncomputable def logRetsPos : ℝ → List ℝ → List ℝ
  | _, [] => []
  | x, y :: rest => Real.log (y / x) :: logRetsPos y rest

/-- The log-return series of a close series with all entries present. -/
noncomputable def logReturnsPos : List ℝ → List ℝ
  | [] => []
  | x :: rest => logRetsPos x rest

/-- The last `n` elements of a list. -/
def lastWindow (n : ℕ) (l : List ℝ) : List ℝ := l.drop (l.length - n)

/-- Sample variance with Bessel's correction (divisor `length - 1`) of a list
of reals, as in the claim's statement of the estimator's formula. -/
noncomputable def sampleVariance (l : List ℝ) : ℝ :=
  (l.map (fun x => (x - l.sum / (l.length : ℝ)) ^ 2)).sum / ((l.length - 1 : ℕ) : ℝ)

/-- A close is invalid when it is missing or non-positive. -/
def invalidClose : Option ℝ → Prop
  | none => True
  | some x => x ≤ 0

/-! Basic lemmas about the log-return pass. -/

theorem retsAux_pos (x : ℝ) (cs : List ℝ) (hx : 0 < x) (hcs : ∀ y ∈ cs, 0 < y) :
    retsAux (some x) (cs.map some) = some (logRetsPos x cs) := by
  induction cs generalizing x with
  | nil => rfl
  | cons y rest ih =>
    have hy : 0 < y := hcs y (by simp)
    have hrest : ∀ z ∈ rest, 0 < z := fun z hz => hcs z (by simp [hz])
    simp only [List.map_cons, retsAux, logRetsPos]
    rw [if_neg (by push_neg; exact ⟨hx, hy⟩), ih y hy hrest]
    rfl

theorem logRetsPos_length (x : ℝ) (cs : List ℝ) :
    (logRetsPos x cs).length = cs.length := by
  induction cs generalizing x with
  | nil => rfl
  | cons y rest ih => simp [logRetsPos, ih]

theorem computeRets_pos (cs : List ℝ) (hcs : ∀ y ∈ cs, 0 < y) :
    computeRets (cs.map some) = some (logReturnsPos cs) := by
  cases cs with
  | nil => rfl
  | cons x rest =>
    have hx : 0 < x := hcs x (by simp)
    have hrest : ∀ z ∈ rest, 0 < z := fun z hz => hcs z (by simp [hz])
    simpa [computeRets, logReturnsPos] using retsAux_pos x rest hx hrest

theorem logReturnsPos_length (cs : List ℝ) :
    (logReturnsPos cs).length = cs.length - 1 := by
  cases cs with
  | nil => rfl
  | cons x rest => simp [logReturnsPos, logRetsPos_length]

/-- A single invalid consecutive pair anywhere in the series makes the whole
log-return pass fail. -/
theorem retsAux_poisoned (c : Option ℝ) (cs : List (Option ℝ))
    (h : ∃ j, j + 1 < (c :: cs).length ∧
        (invalidClose ((c :: cs).getD j (some 1)) ∨
         invalidClose ((c :: cs).getD (j + 1) (some 1)))) :
    retsAux c cs = none := by
  induction cs generalizing c with
  | nil =>
    obtain ⟨j, hj, _⟩ := h
    simp at hj
  | cons c1 rest ih =>
    obtain ⟨j, hj, hbad⟩ := h
    match j, hbad with
    | 0, hbad =>
      -- the invalid close is c or c1 : the first loop step fails
      match c, c1, hbad with
      | none, _, _ => rfl
      | some x0, none, hbad =>
        cases hbad with
        | inl h0 => simp [invalidClose] at h0; simp [retsAux, h0]
        | inr _ => rfl
      | some x0, some x1, hbad =>
        have : x0 ≤ 0 ∨ x1 ≤ 0 := by
          simpa [invalidClose] using hbad
        simp [retsAux, if_pos this]
    | (j' + 1), hbad =>
      -- the invalid pair sits further in : either the first step already
      -- fails, or it succeeds and the tail pass fails by induction
      have htail : retsAux c1 rest = none := by
        apply ih
        exact ⟨j', by simpa using hj, by simpa using hbad⟩
      match c, c1 with
      | none, _ => rfl
      | some x0, none => rfl
      | some x0, some x1 =>
        by_cases hle : x0 ≤ 0 ∨ x1 ≤ 0
        · simp [retsAux, if_pos hle]
        · simp [retsAux, if_neg hle, htail]

theorem computeRets_poisoned (closes : List (Option ℝ))
    (h : ∃ j, j + 1 < closes.length ∧
        (invalidClose (closes.getD j (some 1)) ∨
         invalidClose (closes.getD (j + 1) (some 1)))) :
    computeRets closes = none := by
  cases closes with
  | nil =>
    obtain ⟨j, hj, _⟩ := h
    simp at hj
  | cons c rest => exact retsAux_poisoned c rest h

/-! Evaluation lemmas for the estimator. -/

theorem realized_vol_short (closes : List (Option ℝ)) (window : ℕ)
    (h : closes.length < window + 1) :
    realized_vol_annualized_from_closes closes window = .ok none := by
  unfold realized_vol_annualized_from_closes
  rw [if_pos h]

theorem realized_vol_of_computeRets_none (closes : List (Option ℝ)) (window : ℕ)
    (h2 : computeRets closes = none) (h1 : ¬ closes.length < window + 1) :
    realized_vol_annualized_from_closes closes window = .ok none := by
  unfold realized_vol_annualized_from_closes
  rw [if_neg h1, h2]

theorem realized_vol_of_computeRets_some (closes : List (Option ℝ)) (window : ℕ)
    (rets : List ℝ) (h2 : computeRets closes = some rets)
    (h1 : ¬ closes.length < window + 1) :
    realized_vol_annualized_from_closes closes window = rvFromRets rets window := by
  unfold realized_vol_annualized_from_closes
  rw [if_neg h1, h2]

theorem rvWindow_eval (w : List ℝ) (window : ℕ) (hw : 2 ≤ window)
    (hlen : w.length = window) :
    rvWindow w window = .ok (some (Real.sqrt (sampleVariance w * 252))) := by
  unfold rvWindow
  rw [if_neg (by omega), if_neg (by omega)]
  simp [sampleVariance]

theorem rvFromRets_eval (rets : List ℝ) (window : ℕ) (hw : 2 ≤ window)
    (hle : window ≤ rets.length) :
    rvFromRets rets window
      = .ok (some (Real.sqrt (sampleVariance (lastWindow window rets) * 252))) := by
  unfold rvFromRets
  rw [if_neg (by omega)]
  exact rvWindow_eval _ _ hw (by simp [List.length_drop]; omega)

/-! ## Claims about the realized-volatility estimator -/

/-- C1 : for every close series of length at least `W + 1` with all closes
positive (`W ≥ 2`), `realized_vol_annualized_from_closes` returns a
non-negative value equal to `sqrt (252 * v)` where `v` is the sample variance
(divisor `W - 1`) of the last `W` log-returns; for every series of length less
than `W + 1` it returns absent. -/
theorem realized_vol_on_positive_series (cs : List ℝ) (window : ℕ)
    (hw : 2 ≤ window) (hpos : ∀ x ∈ cs, 0 < x) :
    (∀ closes : List (Option ℝ), closes.length < window + 1 →
      realized_vol_annualized_from_closes closes window = .ok none) ∧
    (window + 1 ≤ cs.length →
      ∃ r, realized_vol_annualized_from_closes (cs.map some) window = .ok (some r) ∧
        0 ≤ r ∧
        r = Real.sqrt (252 * sampleVariance (lastWindow window (logReturnsPos cs)))) := by
  constructor
  · intro closes hshort
    exact realized_vol_short _ _ hshort
  · intro hlong
    have h1 : ¬ ((cs.map some).length < window + 1) := by simp; omega
    have h2 := computeRets_pos cs hpos
    have hlen := logReturnsPos_length cs
    have hle : window ≤ (logReturnsPos cs).length := by omega
    rw [realized_vol_of_computeRets_some _ _ _ h2 h1, rvFromRets_eval _ _ hw hle]
    exact ⟨_, rfl, Real.sqrt_nonneg _, by rw [mul_comm]⟩

/-- Witness for C1 : a concrete positive, increasing series of length
`window + 1` hits the formula branch of the theorem. -/
theorem realized_vol_on_positive_series_witness :
    ∃ r, realized_vol_annualized_from_closes ([(1 : ℝ), 2, 4].map some) 2
        = .ok (some r) ∧ 0 ≤ r ∧
        r = Real.sqrt (252 * sampleVariance (lastWindow 2 (logReturnsPos [(1 : ℝ), 2, 4]))) :=
  (realized_vol_on_positive_series [(1 : ℝ), 2, 4] 2 (by norm_num)
    (by intro x hx; simp at hx; rcases hx with h | h | h <;> simp [h])).2 (by simp)

/-- C5 : with `W ≥ 2`, a missing or non-positive close entering the trailing
`W`-return window forces the result to absent (no silent skipping of the
invalid return). -/
theorem realized_vol_poisoned_in_window (closes : List (Option ℝ)) (window : ℕ)
    (hw : 2 ≤ window)
    (h : ∃ j, j + 1 < closes.length ∧ closes.length ≤ j + 1 + window ∧
        (invalidClose (closes.getD j (some 1)) ∨
         invalidClose (closes.getD (j + 1) (some 1)))) :
    realized_vol_annualized_from_closes closes window = .ok none := by
  obtain ⟨j, hj, _, hbad⟩ := h
  by_cases hs : closes.length < window + 1
  · exact realized_vol_short _ _ hs
  · exact realized_vol_of_computeRets_none _ _
      (computeRets_poisoned closes ⟨j, hj, hbad⟩) hs

/-- Witness for C5 : the middle close of a three-close series is negative, so
the 2-return window is poisoned and the result is absent. -/
theorem realized_vol_poisoned_in_window_witness :
    realized_vol_annualized_from_closes [some 1, some (-1), some 2] 2 = .ok none :=
  realized_vol_poisoned_in_window [some 1, some (-1), some 2] 2 (by norm_num)
    ⟨0, by norm_num, by norm_num, Or.inr (by norm_num [invalidClose])⟩

/-- C10 : `realized_vol_annualized_from_closes` returns absent whenever any
consecutive pair of closes anywhere in the input is missing or non-positive,
with no restriction tying the bad pair to the trailing window — in particular
even when the bad price lies strictly before the trailing `W`-return window. -/
theorem realized_vol_poisoned_anywhere (closes : List (Option ℝ)) (window : ℕ)
    (h : ∃ j, j + 1 < closes.length ∧
        (invalidClose (closes.getD j (some 1)) ∨
         invalidClose (closes.getD (j + 1) (some 1)))) :
    realized_vol_annualized_from_closes closes window = .ok none := by
  by_cases hs : closes.length < window + 1
  · exact realized_vol_short _ _ hs
  · exact realized_vol_of_computeRets_none _ _ (computeRets_poisoned closes h) hs

/-- Witness for C10 : the first close is negative while the last two returns
(the whole trailing window for `W = 2`) are valid; the result is still
absent. -/
theorem realized_vol_poisoned_anywhere_witness :
    realized_vol_annualized_from_closes
      [some (-5), some 1, some 2, some 4, some 8] 2 = .ok none :=
  realized_vol_poisoned_anywhere [some (-5), some 1, some 2, some 4, some 8] 2
    ⟨0, by norm_num, Or.inl (by norm_num [invalidClose])⟩

/-- C6 : contrary to the specification, the estimator does not return absent
for `W ≤ 1`: with `window = 1` and two valid closes it reaches the variance
division by `len(w) - 1 = 0` and raises `ZeroDivisionError` (modelled as
`.error ()`). -/
theorem realized_vol_window_one_raises :
    realized_vol_annualized_from_closes [some 1, some 2] 1 = .error () := by
  have h2 : computeRets [some 1, some 2] = some [Real.log (2 / 1)] := by
    have : ¬ ((1 : ℝ) ≤ 0 ∨ (2 : ℝ) ≤ 0) := by norm_num
    simp [computeRets, retsAux, this]
  rw [realized_vol_of_computeRets_some _ _ _ h2 (by simp)]
  unfold rvFromRets rvWindow
  norm_num

/-! ## scan_sp500.py : quotes, ATM selection, gap scoring, chunked fetch

Quote fields are modelled after the normalization the source applies on
every read: `_safe_float(_first(q.get("iv")))` yields an optional scalar, so
a quote is a pair of optional rationals.  A Python dict with string keys is
an insertion-ordered association list with pairwise-distinct keys; iteration
order is insertion order. -/

/-- An option quote after `_first` / `_safe_float` normalization. -/
structure Quote where
  iv : Option ℚ
  delta : Option ℚ
  deriving DecidableEq, Repr

/-- Loop state and iteration of `pick_atm_from_quotes`: the running best
candidate is `(symbol, iv, delta, dist)`; a quote with missing `iv` or
`delta` is skipped; a strictly smaller distance to `0.5` replaces the best
(so ties keep the earlier candidate). -/
def pickLoop : Option (String × ℚ × ℚ × ℚ) → List (String × Quote) →
    Option (String × ℚ × ℚ × ℚ)
  | best, [] => best
  | best, (sym, q) :: rest =>
    match q.iv, q.delta with
    | some iv, some delta =>
      let dist := |delta - 1/2|
      match best with
      | none => pickLoop (some (sym, iv, delta, dist)) rest
      | some b =>
        if dist < b.2.2.2 then pickLoop (some (sym, iv, delta, dist)) rest
        else pickLoop best rest
    | _, _ => pickLoop best rest

/-- Embedding of `pick_atm_from_quotes` from `src/scan_sp500.py`.  The `spot`
argument is accepted and ignored, exactly as in the source. -/
def pick_atm_from_quotes (spot : ℚ) (quotes : List (String × Quote)) :
    Option String × Option ℚ × Option ℚ :=
  match pickLoop none quotes with
  | none => (none, none, none)
  | some (sym, iv, delta, _) => (some sym, some iv, some delta)

/-- The result record of `get_atm_iv_for_ticker` (the `ticker` string field of
the source dict is omitted; it is threaded through unchanged). -/
structure AtmResult where
  spot : Option ℚ
  iv : Option ℚ
  delta : Option ℚ
  option_symbol : Option String
  reason : Option String
  deriving DecidableEq, Repr

/-- Embedding of `get_atm_iv_for_ticker` from `src/scan_sp500.py`.  The three
network fetches (`fetch_spot`, `fetch_chain_symbols`,
`fetch_quotes_batch_chunked`) are passed in as their results; the surrounding
`try/except` is not modelled since the embedded body is total. -/
def get_atm_iv_for_ticker (spot : Option ℚ) (chain : List String)
    (quotes : List (String × Quote)) : AtmResult :=
  match spot with
  | none => ⟨none, none, none, none, some "no_spot"⟩
  | some s =>
    if chain.isEmpty then ⟨some s, none, none, none, some "no_chain"⟩
    else if quotes.isEmpty then ⟨some s, none, none, none, some "no_quotes"⟩
    else
      match pick_atm_from_quotes s quotes with
      | (_, none, _) => ⟨some s, none, none, none, some "no_iv"⟩
      | (sym, some iv, delta) => ⟨some s, some iv, delta, sym, none⟩

/-- Embedding of `score_iv_gap` from `src/scan_sp500.py`. -/
def score_iv_gap (iv rv : Option ℚ) : Option ℚ × Option ℚ :=
  match iv, rv with
  | some i, some r => if r = 0 then (none, none) else (some (i - r), some (i / r - 1))
  | _, _ => (none, none)

/-- The eligible candidates of a quote map: the quotes with both `iv` and
`delta` present, as `(symbol, iv, delta)` triples in map order. -/
def eligibleQuotes (quotes : List (String × Quote)) : List (String × ℚ × ℚ) :=
  quotes.filterMap (fun p =>
    match p.2.iv, p.2.delta with
    | some iv, some delta => some (p.1, iv, delta)
    | _, _ => none)

/-- Distance of a candidate's delta to 0.5, the sole ordering criterion of the
ATM selection. -/
def distTo50 (c : String × ℚ × ℚ) : ℚ := |c.2.2 - 1/2|

/-- The loop state corresponding to an eligible candidate. -/
def candState (c : String × ℚ × ℚ) : String × ℚ × ℚ × ℚ :=
  (c.1, c.2.1, c.2.2, distTo50 c)

/-- Reference form of the selection loop on the eligible candidates: keep the
current best, replace it only on strictly smaller distance. -/
def firstMinAux (b : String × ℚ × ℚ) : List (String × ℚ × ℚ) → String × ℚ × ℚ
  | [] => b
  | c :: rest => if distTo50 c < distTo50 b then firstMinAux c rest else firstMinAux b rest

theorem eligibleQuotes_cons_some (sym : String) (q : Quote)
    (rest : List (String × Quote)) (iv delta : ℚ)
    (hiv : q.iv = some iv) (hdelta : q.delta = some delta) :
    eligibleQuotes ((sym, q) :: rest) = (sym, iv, delta) :: eligibleQuotes rest := by
  simp [eligibleQuotes, List.filterMap_cons, hiv, hdelta]

theorem eligibleQuotes_cons_none (sym : String) (q : Quote)
    (rest : List (String × Quote)) (h : q.iv = none ∨ q.delta = none) :
    eligibleQuotes ((sym, q) :: rest) = eligibleQuotes rest := by
  rcases h with h | h
  · simp [eligibleQuotes, List.filterMap_cons, h]
  · cases hiv : q.iv <;> simp [eligibleQuotes, List.filterMap_cons, hiv, h]

theorem pickLoop_some (l : List (String × Quote)) :
    ∀ b : String × ℚ × ℚ,
      pickLoop (some (candState b)) l
        = some (candState (firstMinAux b (eligibleQuotes l))) := by
  induction l with
  | nil => intro b; rfl
  | cons p rest ih =>
    intro b
    obtain ⟨sym, q⟩ := p
    rcases hiv : q.iv with _ | iv
    · rw [eligibleQuotes_cons_none sym q rest (Or.inl hiv)]
      simp only [pickLoop, hiv]
      exact ih b
    rcases hdelta : q.delta with _ | delta
    · rw [eligibleQuotes_cons_none sym q rest (Or.inr hdelta)]
      simp only [pickLoop, hiv, hdelta]
      exact ih b
    rw [eligibleQuotes_cons_some sym q rest iv delta hiv hdelta]
    simp only [pickLoop, hiv, hdelta]
    by_cases hlt : distTo50 (sym, iv, delta) < distTo50 b
    · rw [if_pos (show |delta - 1/2| < (candState b).2.2.2 from hlt)]
      simp only [firstMinAux]
      rw [if_pos hlt]
      exact ih (sym, iv, delta)
    · rw [if_neg (show ¬ |delta - 1/2| < (candState b).2.2.2 from hlt)]
      simp only [firstMinAux]
      rw [if_neg hlt]
      exact ih b

theorem pickLoop_none (l : List (String × Quote)) :
    pickLoop none l
      = match eligibleQuotes l with
        | [] => none
        | c :: E => some (candState (firstMinAux c E)) := by
  induction l with
  | nil => rfl
  | cons p rest ih =>
    obtain ⟨sym, q⟩ := p
    rcases hiv : q.iv with _ | iv
    · rw [eligibleQuotes_cons_none sym q rest (Or.inl hiv)]
      simp only [pickLoop, hiv]
      exact ih
    rcases hdelta : q.delta with _ | delta
    · rw [eligibleQuotes_cons_none sym q rest (Or.inr hdelta)]
      simp only [pickLoop, hiv, hdelta]
      exact ih
    rw [eligibleQuotes_cons_some sym q rest iv delta hiv hdelta]
    simp only [pickLoop, hiv, hdelta]
    exact pickLoop_some rest (sym, iv, delta)

/-- The element kept by the reference loop splits `b :: E` into a strictly
worse prefix and a no-better suffix : it is the first minimum. -/
theorem firstMinAux_spec (E : List (String × ℚ × ℚ)) :
    ∀ b : String × ℚ × ℚ, ∃ pre post,
      b :: E = pre ++ firstMinAux b E :: post ∧
      (∀ e ∈ pre, distTo50 (firstMinAux b E) < distTo50 e) ∧
      (∀ e ∈ post, distTo50 (firstMinAux b E) ≤ distTo50 e) := by
  induction E with
  | nil => intro b; exact ⟨[], [], rfl, by simp, by simp⟩
  | cons c rest ih =>
    intro b
    by_cases h : distTo50 c < distTo50 b
    · rw [show firstMinAux b (c :: rest) = firstMinAux c rest from by
        simp [firstMinAux, h]]
      obtain ⟨pre, post, heq, hpre, hpost⟩ := ih c
      have hmin : distTo50 (firstMinAux c rest) < distTo50 b := by
        cases pre with
        | nil =>
          injection heq with h1 _
          rw [← h1]
          exact h
        | cons p pre' =>
          injection heq with h1 _
          subst h1
          exact (hpre c (List.mem_cons_self _ _)).trans h
      refine ⟨b :: pre, post, ?_, ?_, hpost⟩
      · rw [heq]
        rfl
      · intro e he
        rcases List.mem_cons.mp he with rfl | he'
        · exact hmin
        · exact hpre e he'
    · rw [show firstMinAux b (c :: rest) = firstMinAux b rest from by
        simp [firstMinAux, h]]
      obtain ⟨pre, post, heq, hpre, hpost⟩ := ih b
      cases pre with
      | nil =>
        injection heq with h1 h2
        refine ⟨[], c :: rest, by rw [← h1]; rfl, by simp, ?_⟩
        intro e he
        rcases List.mem_cons.mp he with rfl | he'
        · rw [← h1]
          exact le_of_not_lt h
        · rw [h2] at he'
          exact hpost e he'
      | cons p pre' =>
        injection heq with h1 h2
        subst h1
        have hrb : distTo50 (firstMinAux b rest) < distTo50 b :=
          hpre b (List.mem_cons_self _ _)
        refine ⟨b :: c :: pre', post, ?_, ?_, hpost⟩
        · have hsplit : b :: c :: rest = b :: c :: (pre' ++ firstMinAux b rest :: post) := by
            conv_lhs => rw [h2]
            rfl
          simpa using hsplit
        · intro e he
          rcases List.mem_cons.mp he with rfl | he'
          · exact hrb
          rcases List.mem_cons.mp he' with rfl | he''
          · exact hrb.trans_le (le_of_not_lt h)
          · exact hpre e (List.mem_cons_of_mem _ he'')

theorem pick_atm_of_eligible_nil (spot : ℚ) (quotes : List (String × Quote))
    (h : eligibleQuotes quotes = []) :
    pick_atm_from_quotes spot quotes = (none, none, none) := by
  unfold pick_atm_from_quotes
  rw [pickLoop_none, h]

theorem pick_atm_of_eligible_cons (spot : ℚ) (quotes : List (String × Quote))
    (c : String × ℚ × ℚ) (E : List (String × ℚ × ℚ))
    (h : eligibleQuotes quotes = c :: E) :
    pick_atm_from_quotes spot quotes
      = (some (firstMinAux c E).1, some (firstMinAux c E).2.1,
         some (firstMinAux c E).2.2) := by
  unfold pick_atm_from_quotes
  rw [pickLoop_none, h]
  rfl

/-! ## Claims about ATM selection and gap scoring -/

/-- C3 (amended) : `pick_atm_from_quotes` skips quotes with absent `iv` or
`delta`; among the eligible quotes it returns the first one whose delta is
closest to 0.5 in absolute distance (strictly better than everything before
it, at least as good as everything after it); and when the quote map is
nonempty but has no eligible quote, `get_atm_iv_for_ticker` reports
`"no_iv"`.  (An empty quote map reports `"no_quotes"` instead — see the
counterexample to the original claim.) -/
theorem pick_atm_closest (spot : ℚ) (quotes : List (String × Quote)) :
    (eligibleQuotes quotes = [] → pick_atm_from_quotes spot quotes = (none, none, none)) ∧
    (∀ c E, eligibleQuotes quotes = c :: E →
      ∃ pre post,
        c :: E = pre ++ firstMinAux c E :: post ∧
        pick_atm_from_quotes spot quotes
          = (some (firstMinAux c E).1, some (firstMinAux c E).2.1,
             some (firstMinAux c E).2.2) ∧
        (∀ e ∈ pre, distTo50 (firstMinAux c E) < distTo50 e) ∧
        (∀ e ∈ post, distTo50 (firstMinAux c E) ≤ distTo50 e)) ∧
    (∀ s₀ : ℚ, ∀ chain : List String, chain ≠ [] → quotes ≠ [] →
      eligibleQuotes quotes = [] →
      (get_atm_iv_for_ticker (some s₀) chain quotes).reason = some "no_iv") := by
  refine ⟨pick_atm_of_eligible_nil spot quotes, ?_, ?_⟩
  · intro c E h
    obtain ⟨pre, post, heq, hpre, hpost⟩ := firstMinAux_spec E c
    exact ⟨pre, post, heq, pick_atm_of_eligible_cons spot quotes c E h, hpre, hpost⟩
  · intro s₀ chain hchain hquotes helig
    cases chain with
    | nil => exact absurd rfl hchain
    | cons a as =>
      cases quotes with
      | nil => exact absurd rfl hquotes
      | cons p ps =>
        have hpick : pick_atm_from_quotes s₀ (p :: ps) = (none, none, none) :=
          pick_atm_of_eligible_nil s₀ (p :: ps) helig
        simp [get_atm_iv_for_ticker, hpick]

/-- Counterexample to C3 as stated : with an empty quote map there is no
eligible quote, yet `get_atm_iv_for_ticker` reports `"no_quotes"`, not
`"no_iv"`. -/
theorem get_atm_empty_quotes_reason :
    eligibleQuotes [] = [] ∧
    (get_atm_iv_for_ticker (some 152) ["AAPL240621C150"] []).reason
      = some "no_quotes" ∧
    (get_atm_iv_for_ticker (some 152) ["AAPL240621C150"] []).reason
      ≠ some "no_iv" :=
  ⟨rfl, rfl, by simp [get_atm_iv_for_ticker]⟩

/-- Witness for C3 : a nonempty quote map whose single quote has absent `iv`
has no eligible quote, and the reported reason is `"no_iv"`. -/
theorem pick_atm_closest_witness :
    (get_atm_iv_for_ticker (some 152) ["AAPL240621C150"]
      [("AAPL240621C150", ⟨none, some 1⟩)]).reason = some "no_iv" :=
  (pick_atm_closest 152 [("AAPL240621C150", ⟨none, some 1⟩)]).2.2 152
    ["AAPL240621C150"] (by simp) (by simp) rfl

/-- C4 : `score_iv_gap` returns `(absent, absent)` exactly when `iv` is
absent, `rv` is absent, or `rv = 0`; otherwise it returns
`(iv - rv, iv / rv - 1)`; and `iv = rv ≠ 0` yields exactly `(0, 0)`. -/
theorem score_iv_gap_spec (iv rv : Option ℚ) :
    (score_iv_gap iv rv = (none, none) ↔ iv = none ∨ rv = none ∨ rv = some 0) ∧
    (∀ i r, iv = some i → rv = some r → r ≠ 0 →
      score_iv_gap iv rv = (some (i - r), some (i / r - 1))) ∧
    (∀ r : ℚ, r ≠ 0 → score_iv_gap (some r) (some r) = (some 0, some 0)) := by
  refine ⟨?_, ?_, ?_⟩
  · cases iv with
    | none => simp [score_iv_gap]
    | some i =>
      cases rv with
      | none => simp [score_iv_gap]
      | some r =>
        by_cases hr : r = 0 <;> simp [score_iv_gap, hr]
  · rintro i r rfl rfl hr
    simp [score_iv_gap, hr]
  · intro r hr
    simp [score_iv_gap, hr, div_self hr]

/-! ## scan_sp500.py : fetch_quotes_batch_chunked

The HTTP layer is embedded as an oracle `respond` mapping a chunk (the list
of symbols of one request) to its outcome.  The result dict is an
insertion-ordered association list with Python `dict.update` semantics.  The
embedding additionally records the list of requests issued, to state
properties of the retry discipline. -/

/-- Outcome of one `quotes_batch` HTTP request : the request raised (network
error or non-2xx status via `raise_for_status`), returned a JSON whose `s`
field is not `"ok"`, or returned a quote dict. -/
inductive ChunkOutcome where
  | raise
  | notOk
  | ok (quotes : List (String × Quote))
  deriving DecidableEq, Repr

/-- Python dict insert : overwrite in place if the key exists, append
otherwise. -/
def dictInsert (d : List (String × Quote)) (k : String) (v : Quote) :
    List (String × Quote) :=
  if d.any (fun p => p.1 = k) then
    d.map (fun p => if p.1 = k then (k, v) else p)
  else d ++ [(k, v)]

/-- Python `out.update(quotes)` : insert every pair of `new` into `d` in
order. -/
def dictUpdate (d new : List (String × Quote)) : List (String × Quote) :=
  new.foldl (fun acc p => dictInsert acc p.1 p.2) d

/-- Lookup in the dict model. -/
def dictGet (d : List (String × Quote)) (k : String) : Option Quote :=
  (d.find? (fun p => p.1 = k)).map (fun p => p.2)

/-- First-seen-order deduplication of the symbol list, as in the source
(`seen` set plus `uniq` list); `seen` is the accumulator of symbols already
kept. -/
def dedupeFirst (seen : List String) : List String → List String
  | [] => []
  | s :: rest =>
    if s ∈ seen then dedupeFirst seen rest
    else s :: dedupeFirst (s :: seen) rest

/-- The chunks `uniq[i : i + chunk_size]` for `i = 0, n, 2n, ...`.  The
`n = 0` guard is unreachable from the source (the chunk size is the constant
20) and returns no chunks. -/
def chunksOf (n : ℕ) (l : List String) : List (List String) :=
  if h : n = 0 ∨ l = [] then []
  else l.take n :: chunksOf n (l.drop n)
termination_by l.length
decreasing_by
  push_neg at h
  have hn : 0 < n := Nat.pos_of_ne_zero h.1
  have hl : 0 < l.length := List.length_pos.mpr h.2
  simpa using Nat.sub_lt hl hn

/-- Result of the chunked fetch : the quote map built so far and the chunks
requested, in request order. -/
structure FetchResult where
  out : List (String × Quote)
  requests : List (List String)
  deriving DecidableEq, Repr

/-- The chunk loop of `fetch_quotes_batch_chunked` : one request per chunk;
an exception or a non-ok status skips the chunk (`continue`), a quote dict is
merged with `out.update(quotes)`. -/
def fetchLoop (respond : List String → ChunkOutcome) :
    List (List String) → List (String × Quote) → List (List String) → FetchResult
  | [], out, reqs => ⟨out, reqs⟩
  | chunk :: rest, out, reqs =>
    match respond chunk with
    | .ok quotes => fetchLoop respond rest (dictUpdate out quotes) (reqs ++ [chunk])
    | _ => fetchLoop respond rest out (reqs ++ [chunk])

/-- Embedding of `fetch_quotes_batch_chunked` from `src/scan_sp500.py` :
filter empty symbols, dedupe preserving first-seen order, chunk, then fetch
each chunk once.  (String stripping is the identity here; symbols are taken
as already stripped.) -/
def fetch_quotes_batch_chunked (respond : List String → ChunkOutcome)
    (symbols : List String) (chunk_size : ℕ) : FetchResult :=
  fetchLoop respond
    (chunksOf chunk_size (dedupeFirst [] (symbols.filter (fun s => s ≠ "")))) [] []

/-- The reference merge of the successful chunks only, in order. -/
def mergeOkChunks (respond : List String → ChunkOutcome)
    (chunks : List (List String)) : List (String × Quote) :=
  (chunks.filterMap (fun c =>
    match respond c with
    | .ok quotes => some quotes
    | _ => none)).foldl dictUpdate []

/-! Lemmas about the dict model and the chunk loop. -/

theorem find?_map_overwrite (k : String) (v : Quote) (s : String) (h : k ≠ s) :
    ∀ d : List (String × Quote),
      ((d.map (fun p => if p.1 = k then (k, v) else p)).find? (fun p => p.1 = s))
        = d.find? (fun p => p.1 = s)
  | [] => rfl
  | p :: d => by
    by_cases hp : p.1 = k
    · have h1 : ¬ ((k : String) = s) := h
      have h2 : ¬ (p.1 = s) := by rw [hp]; exact h
      simp only [List.map_cons, if_pos hp]
      rw [List.find?_cons_of_neg _ (by simpa using h1),
        List.find?_cons_of_neg _ (by simpa using h2)]
      exact find?_map_overwrite k v s h d
    · simp only [List.map_cons, if_neg hp]
      by_cases hs : p.1 = s
      · rw [List.find?_cons_of_pos _ (by simpa using hs),
          List.find?_cons_of_pos _ (by simpa using hs)]
      · rw [List.find?_cons_of_neg _ (by simpa using hs),
          List.find?_cons_of_neg _ (by simpa using hs)]
        exact find?_map_overwrite k v s h d

theorem dictGet_dictInsert_ne (d : List (String × Quote)) (k : String) (v : Quote)
    (s : String) (h : k ≠ s) : dictGet (dictInsert d k v) s = dictGet d s := by
  unfold dictInsert dictGet
  by_cases hany : d.any (fun p => p.1 = k)
  · rw [if_pos hany, find?_map_overwrite k v s h]
  · rw [if_neg hany, List.find?_append]
    have : ([(k, v)].find? (fun p => p.1 = s)) = none := by
      simp [List.find?, h]
    rw [this, Option.or_none]

theorem dictGet_dictUpdate_of_absent (new : List (String × Quote)) (s : String)
    (h : ∀ p ∈ new, p.1 ≠ s) :
    ∀ d, dictGet (dictUpdate d new) s = dictGet d s := by
  induction new with
  | nil => intro d; rfl
  | cons p rest ih =>
    intro d
    have hp : p.1 ≠ s := h p (by simp)
    have hrest : ∀ q ∈ rest, q.1 ≠ s := fun q hq => h q (by simp [hq])
    show dictGet (dictUpdate (dictInsert d p.1 p.2) rest) s = dictGet d s
    rw [ih hrest, dictGet_dictInsert_ne d p.1 p.2 s hp]

/-- The chunk loop equals : merge the successful chunks in order into the
accumulator, and append every chunk to the request log. -/
theorem fetchLoop_eq (respond : List String → ChunkOutcome) :
    ∀ (chunks : List (List String)) (out : List (String × Quote))
      (reqs : List (List String)),
      fetchLoop respond chunks out reqs
        = ⟨(chunks.filterMap (fun c =>
              match respond c with
              | .ok quotes => some quotes
              | _ => none)).foldl dictUpdate out,
           reqs ++ chunks⟩ := by
  intro chunks
  induction chunks with
  | nil => intro out reqs; simp [fetchLoop]
  | cons chunk rest ih =>
    intro out reqs
    rcases hresp : respond chunk with _ | _ | quotes
    · simp only [fetchLoop, hresp, List.filterMap_cons]
      rw [ih]
      simp
    · simp only [fetchLoop, hresp, List.filterMap_cons]
      rw [ih]
      simp
    · simp only [fetchLoop, hresp, List.filterMap_cons]
      rw [ih]
      simp

theorem dictGet_mergeAbsent (s : String) :
    ∀ (qss : List (List (String × Quote))) (acc : List (String × Quote)),
      (∀ q ∈ qss, ∀ p ∈ q, p.1 ≠ s) → dictGet acc s = none →
      dictGet (qss.foldl dictUpdate acc) s = none := by
  intro qss
  induction qss with
  | nil => intro acc _ hacc; exact hacc
  | cons q rest ih =>
    intro acc hq hacc
    show dictGet (rest.foldl dictUpdate (dictUpdate acc q)) s = none
    refine ih (dictUpdate acc q) (fun r hr p hp => hq r (by simp [hr]) p hp) ?_
    rw [dictGet_dictUpdate_of_absent q s (hq q (by simp)), hacc]

/-- C7 : a chunk whose request raises or returns a non-ok status contributes
nothing to the result map and does not abort the remaining chunks : the
output map is exactly the in-order merge of the successful chunks (each
merged in full via `dict.update`, i.e. atomically), every chunk is requested,
and a symbol appearing in no successful chunk response is absent from the
result. -/
theorem chunk_failure_isolation (respond : List String → ChunkOutcome)
    (symbols : List String) (chunk_size : ℕ) :
    (fetch_quotes_batch_chunked respond symbols chunk_size).out
      = mergeOkChunks respond
          (chunksOf chunk_size (dedupeFirst [] (symbols.filter (fun s => s ≠ "")))) ∧
    (fetch_quotes_batch_chunked respond symbols chunk_size).requests
      = chunksOf chunk_size (dedupeFirst [] (symbols.filter (fun s => s ≠ ""))) ∧
    (∀ s : String,
      (∀ chunk ∈ chunksOf chunk_size (dedupeFirst [] (symbols.filter (fun s => s ≠ ""))),
        ∀ q, respond chunk = .ok q → ∀ p ∈ q, p.1 ≠ s) →
      dictGet (fetch_quotes_batch_chunked respond symbols chunk_size).out s = none) := by
  have hloop := fetchLoop_eq respond
    (chunksOf chunk_size (dedupeFirst [] (symbols.filter (fun s => s ≠ "")))) [] []
  refine ⟨?_, ?_, ?_⟩
  · rw [fetch_quotes_batch_chunked, hloop]
    rfl
  · rw [fetch_quotes_batch_chunked, hloop]
    rfl
  · intro s habs
    rw [fetch_quotes_batch_chunked, hloop]
    refine dictGet_mergeAbsent s _ [] ?_ rfl
    intro q hq p hp
    rcases List.mem_filterMap.mp hq with ⟨chunk, hchunk, hok⟩
    rcases hoc : respond chunk with _ | _ | quotes <;> rw [hoc] at hok
    · exact absurd hok (by simp)
    · exact absurd hok (by simp)
    · have hqq : quotes = q := by simpa using hok
      subst hqq
      exact habs chunk hchunk _ hoc p hp

theorem chunksOf_nil (n : ℕ) : chunksOf n [] = [] := by
  rw [chunksOf]
  simp

theorem chunksOf_cons (n : ℕ) (l : List String) (hn : n ≠ 0) (hl : l ≠ []) :
    chunksOf n l = l.take n :: chunksOf n (l.drop n) := by
  rw [chunksOf]
  simp [hn, hl]

/-- The chunks of the witness input. -/
theorem chunks_AB :
    chunksOf 1 (dedupeFirst [] (["A", "B"].filter (fun s => s ≠ ""))) = [["A"], ["B"]] := by
  have hd : dedupeFirst [] (["A", "B"].filter (fun s => s ≠ "")) = ["A", "B"] := by
    simp [dedupeFirst, List.filter]
  rw [hd]
  rw [chunksOf_cons 1 ["A", "B"] one_ne_zero (by simp)]
  simp only [List.take_cons, List.drop_succ_cons, List.take_zero, List.drop_zero]
  rw [chunksOf_cons 1 ["B"] one_ne_zero (by simp)]
  simp [chunksOf_nil]

/-- A concrete responder for the witness : the request for chunk `["A"]`
raises; every other request succeeds with an empty quote dict. -/
def respondRaiseA : List String → ChunkOutcome :=
  fun chunk => if chunk = ["A"] then .raise else .ok []

/-- Witness for C7 : with symbols `["A", "B"]` and chunk size 1, the chunk
`["A"]` raises and the chunk `["B"]` succeeds; both chunks are requested, the
failed chunk contributes nothing, and `"A"` is absent from the result. -/
theorem chunk_failure_isolation_witness :
    (fetch_quotes_batch_chunked respondRaiseA ["A", "B"] 1).out
      = mergeOkChunks respondRaiseA
          (chunksOf 1 (dedupeFirst [] (["A", "B"].filter (fun s => s ≠ "")))) ∧
    (fetch_quotes_batch_chunked respondRaiseA ["A", "B"] 1).requests
      = chunksOf 1 (dedupeFirst [] (["A", "B"].filter (fun s => s ≠ ""))) ∧
    dictGet (fetch_quotes_batch_chunked respondRaiseA ["A", "B"] 1).out "A" = none := by
  have h := chunk_failure_isolation respondRaiseA ["A", "B"] 1
  refine ⟨h.1, h.2.1, h.2.2 "A" ?_⟩
  intro chunk hchunk q hok p hp
  rw [chunks_AB] at hchunk
  simp only [List.mem_cons, List.not_mem_nil, or_false] at hchunk
  rcases hchunk with h1 | h1
  · rw [h1] at hok
    simp [respondRaiseA] at hok
  · rw [h1] at hok
    have hq : q = [] := by simpa [respondRaiseA] using hok.symm
    rw [hq] at hp
    simp at hp

/-! ## scripts/backfill_realized_vol.py : md_get_candles_daily

The candle fetch is embedded with an oracle giving the outcome of each
attempt, and returns the result together with the backoff sleeps performed,
as `(attempt, delay)` pairs.  Attempt numbers run from 1 to 5 as in
`for attempt in range(1, 6)`; when the loop exhausts its attempts the
function raises `RuntimeError`, modelled as `.error ()`. -/

/-- Outcome of one candle request attempt : HTTP 429 (rate limit), any other
exception (network error or `raise_for_status`), or a successful JSON
payload (abstracted to a number). -/
inductive CandleResp where
  | rateLimited
  | fail
  | ok (j : ℕ)
  deriving DecidableEq, Repr

/-- Embedding of the retry loop of `md_get_candles_daily` starting at a given
attempt number : on 429 sleep `1.5 * attempt`, on any exception sleep
`1.0 * attempt`, then retry; return the payload on success; raise after
attempt 5. -/
def md_get_candles_daily (respond : ℕ → CandleResp) (attempt : ℕ) :
    Except Unit ℕ × List (ℕ × ℚ) :=
  if h : 5 < attempt then (.error (), [])
  else
    match respond attempt with
    | .ok j => (.ok j, [])
    | .rateLimited =>
      let r := md_get_candles_daily respond (attempt + 1)
      (r.1, (attempt, (3 / 2 : ℚ) * attempt) :: r.2)
    | .fail =>
      let r := md_get_candles_daily respond (attempt + 1)
      (r.1, (attempt, (1 : ℚ) * attempt) :: r.2)
termination_by 6 - attempt
decreasing_by all_goals omega

/-! Unfolding and trace lemmas for the candle retry loop. -/

theorem md_candles_stop (respond : ℕ → CandleResp) (attempt : ℕ) (h : 5 < attempt) :
    md_get_candles_daily respond attempt = (.error (), []) := by
  rw [md_get_candles_daily]
  simp [h]

theorem md_candles_ok (respond : ℕ → CandleResp) (attempt : ℕ) (h : ¬ 5 < attempt)
    (j : ℕ) (hok : respond attempt = .ok j) :
    md_get_candles_daily respond attempt = (.ok j, []) := by
  rw [md_get_candles_daily]
  simp [h, hok]

theorem md_candles_rate (respond : ℕ → CandleResp) (attempt : ℕ) (h : ¬ 5 < attempt)
    (hr : respond attempt = .rateLimited) :
    md_get_candles_daily respond attempt
      = ((md_get_candles_daily respond (attempt + 1)).1,
         (attempt, (3 / 2 : ℚ) * attempt) :: (md_get_candles_daily respond (attempt + 1)).2) := by
  rw [md_get_candles_daily]
  simp [h, hr]

theorem md_candles_fail (respond : ℕ → CandleResp) (attempt : ℕ) (h : ¬ 5 < attempt)
    (hf : respond attempt = .fail) :
    md_get_candles_daily respond attempt
      = ((md_get_candles_daily respond (attempt + 1)).1,
         (attempt, (1 : ℚ) * attempt) :: (md_get_candles_daily respond (attempt + 1)).2) := by
  rw [md_get_candles_daily]
  simp [h, hf]

theorem md_candles_trace_aux (respond : ℕ → CandleResp) :
    ∀ (d attempt : ℕ), 6 - attempt ≤ d →
      (md_get_candles_daily respond attempt).2.length ≤ 6 - attempt ∧
      (∀ e ∈ (md_get_candles_daily respond attempt).2,
        attempt ≤ e.1 ∧ e.1 ≤ 5 ∧
        e.2 = (if respond e.1 = .rateLimited then (3 / 2 : ℚ) else 1) * e.1) := by
  intro d
  induction d with
  | zero =>
    intro attempt h
    rw [md_candles_stop respond attempt (by omega)]
    simp
  | succ d ih =>
    intro attempt h
    by_cases h5 : 5 < attempt
    · rw [md_candles_stop respond attempt h5]
      simp
    · rcases hr : respond attempt with _ | _ | j
      · rw [md_candles_rate respond attempt h5 hr]
        obtain ⟨ihl, ihe⟩ := ih (attempt + 1) (by omega)
        constructor
        · simp only [List.length_cons]
          omega
        · intro e he
          rcases List.mem_cons.mp he with rfl | he'
          · exact ⟨le_refl _, by omega, by simp [hr]⟩
          · obtain ⟨h1, h2, h3⟩ := ihe e he'
            exact ⟨by omega, h2, h3⟩
      · rw [md_candles_fail respond attempt h5 hr]
        obtain ⟨ihl, ihe⟩ := ih (attempt + 1) (by omega)
        constructor
        · simp only [List.length_cons]
          omega
        · intro e he
          rcases List.mem_cons.mp he with rfl | he'
          · exact ⟨le_refl _, by omega, by simp [hr]⟩
          · obtain ⟨h1, h2, h3⟩ := ihe e he'
            exact ⟨by omega, h2, h3⟩
      · rw [md_candles_ok respond attempt h5 j hr]
        simp

/-- C8 (amended) : the candle fetch `md_get_candles_daily` retries up to 5
attempts per call, sleeping `1.0 * attempt` after a generic failure and
`1.5 * attempt` after a rate-limit response (linear backoff with a larger
rate-limit multiplier), while the quote-chunk fetch issues exactly one
request per chunk — its request log is the chunk list itself, so a failing
chunk is never retried. -/
theorem retry_policy (respond : ℕ → CandleResp)
    (respondQ : List String → ChunkOutcome) (symbols : List String)
    (chunk_size : ℕ) :
    ((md_get_candles_daily respond 1).2.length ≤ 5 ∧
      (∀ e ∈ (md_get_candles_daily respond 1).2,
        1 ≤ e.1 ∧ e.1 ≤ 5 ∧
        e.2 = (if respond e.1 = .rateLimited then (3 / 2 : ℚ) else 1) * e.1)) ∧
    (fetch_quotes_batch_chunked respondQ symbols chunk_size).requests
      = chunksOf chunk_size (dedupeFirst [] (symbols.filter (fun s => s ≠ ""))) := by
  constructor
  · obtain ⟨h1, h2⟩ := md_candles_trace_aux respond 6 1 (by omega)
    exact ⟨by omega, h2⟩
  · rw [fetch_quotes_batch_chunked, fetchLoop_eq]
    rfl

/-- Counterexample to C8 as stated : a quote-chunk request that fails
transiently is not retried — with a responder that always raises, the single
chunk `["A"]` is requested exactly once (one attempt, not up to five) and its
symbol is skipped. -/
theorem quote_fetch_no_retry :
    (fetch_quotes_batch_chunked (fun _ => .raise) ["A"] 20).requests = [["A"]] ∧
    (fetch_quotes_batch_chunked (fun _ => .raise) ["A"] 20).out = [] := by
  have hd : dedupeFirst [] (["A"].filter (fun s => s ≠ "")) = ["A"] := by
    simp [dedupeFirst, List.filter]
  have hchunks : chunksOf 20 (dedupeFirst [] (["A"].filter (fun s => s ≠ ""))) = [["A"]] := by
    rw [hd, chunksOf_cons 20 ["A"] (by norm_num) (by simp)]
    simp [chunksOf_nil]
  constructor
  · rw [fetch_quotes_batch_chunked, fetchLoop_eq, hchunks]
    rfl
  · rw [fetch_quotes_batch_chunked, fetchLoop_eq, hchunks]
    rfl

/-! ## main.py : the scan_sp500 endpoint — per-ticker entries and ranking

One response entry per ticker.  The source dict also reads the keys
`"expiry"` and `"atm_strike"` from the ATM dict, which never contains them,
so both are always null and are omitted here. -/

/-- One entry of the `/api/scan/sp500` response. -/
structure ScanEntry where
  ticker : String
  spot : Option ℚ
  iv : Option ℚ
  rv : Option ℚ
  iv_gap : Option ℚ
  score : Option ℚ
  reason : Option String
  deriving DecidableEq, Repr

/-- Embedding of the per-ticker entry construction inside the `scan_sp500`
endpoint of `src/main.py`.  The `reason` expression is Python
`atm.get("reason") or (None if (iv is not None and rv is not None) else
"missing_rv_or_iv")`; every reason string the ATM path produces is nonempty,
hence truthy. -/
def scan_sp500_entry (t : String) (atm : AtmResult) (rv : Option ℚ) : ScanEntry :=
  let iv := atm.iv
  let gs := score_iv_gap iv rv
  { ticker := t, spot := atm.spot, iv := iv, rv := rv, iv_gap := gs.1, score := gs.2,
    reason :=
      match atm.reason with
      | some r => some r
      | none => if iv.isSome ∧ rv.isSome then none else some "missing_rv_or_iv" }

/-- The sort key of the ranking : an absent score is coerced to -1 for the
sort only. -/
def sort_key (x : ScanEntry) : ℚ :=
  match x.score with
  | none => -1
  | some s => s

/-- Embedding of the ranking tail of the `scan_sp500` endpoint :
`results.sort(key=_sort_key, reverse=True)` (a stable descending sort,
embedded as a stable merge sort with the reversed comparison), the
scored/unscored split, and the two truncations. -/
def rank_results (results : List ScanEntry) (top : ℕ) : List ScanEntry :=
  let sorted := results.mergeSort (fun a b => decide (sort_key b ≤ sort_key a))
  let ranked := sorted.filter (fun r => r.score.isSome)
  let missing := sorted.filter (fun r => r.score.isNone)
  ranked.take top ++ missing.take 10

/-- The scored entries in their final ranked order. -/
def sortedScored (results : List ScanEntry) : List ScanEntry :=
  (results.mergeSort (fun a b => decide (sort_key b ≤ sort_key a))).filter
    (fun r => r.score.isSome)

/-- A sublist whose elements all satisfy `p` and which is a permutation of
`l.filter p` is `l.filter p` itself. -/
theorem eq_filter_of_sublist {α : Type} (p : α → Bool) :
    ∀ (l c : List α), c.Sublist l → (∀ x ∈ c, p x) → c.Perm (l.filter p) →
      c = l.filter p := by
  intro l
  induction l with
  | nil =>
    intro c hs _ _
    simpa using List.sublist_nil.mp hs
  | cons a l ih =>
    intro c hs hp hperm
    by_cases hpa : p a
    · rw [List.filter_cons_of_pos hpa] at hperm ⊢
      cases hs with
      | cons _ hs' =>
        exfalso
        have h1 : c.Sublist (l.filter p) := by
          have h2 := hs'.filter p
          rwa [List.filter_eq_self.mpr hp] at h2
        have h3 := h1.length_le
        have h4 := hperm.length_eq
        simp at h4
        omega
      | cons₂ _ hs' =>
        rename_i c'
        have hperm' : c'.Perm (l.filter p) := hperm.cons_inv
        have hp' : ∀ x ∈ c', p x := fun x hx => hp x (by simp [hx])
        rw [ih c' hs' hp' hperm']
    · rw [List.filter_cons_of_neg hpa] at hperm ⊢
      cases hs with
      | cons _ hs' => exact ih _ hs' hp hperm
      | cons₂ _ hs' =>
        exact absurd (hp a (by simp)) hpa

theorem rank_le_trans :
    ∀ (a b c : ScanEntry),
      decide (sort_key b ≤ sort_key a) → decide (sort_key c ≤ sort_key b) →
      decide (sort_key c ≤ sort_key a) := by
  intro a b c hab hbc
  simp only [decide_eq_true_eq] at *
  exact le_trans hbc hab

theorem rank_le_total :
    ∀ (a b : ScanEntry),
      decide (sort_key b ≤ sort_key a) || decide (sort_key a ≤ sort_key b) := by
  intro a b
  simp [le_total]

/-- The unscored entries keep their original relative order through the
sort : stability of the stable sort on the all-tied key -1. -/
theorem sorted_filter_isNone (results : List ScanEntry) :
    (results.mergeSort (fun a b => decide (sort_key b ≤ sort_key a))).filter
        (fun r => r.score.isNone)
      = results.filter (fun r => r.score.isNone) := by
  have hsub : (results.filter (fun r => r.score.isNone)).Sublist
      (results.mergeSort (fun a b => decide (sort_key b ≤ sort_key a))) := by
    apply List.sublist_mergeSort rank_le_trans rank_le_total
    · apply List.pairwise_of_forall_mem_list
      intro a ha b hb
      have ha' : a.score.isNone := (List.mem_filter.mp ha).2
      have hb' : b.score.isNone := (List.mem_filter.mp hb).2
      have hka : sort_key a = -1 := by
        unfold sort_key
        rw [Option.isNone_iff_eq_none.mp ha']
      have hkb : sort_key b = -1 := by
        unfold sort_key
        rw [Option.isNone_iff_eq_none.mp hb']
      simp [hka, hkb]
    · exact List.filter_sublist results
  have hperm : (results.filter (fun r => r.score.isNone)).Perm
      ((results.mergeSort (fun a b => decide (sort_key b ≤ sort_key a))).filter
        (fun r => r.score.isNone)) :=
    (((List.mergeSort_perm results _).filter _)).symm
  exact (eq_filter_of_sublist _ _ _ hsub
    (fun x hx => (List.mem_filter.mp hx).2) hperm).symm

/-- C2 : the scan ranking is the scored entries sorted by score descending
truncated to `top`, followed by at most 10 unscored entries in their original
relative order; the populations are not interleaved (every entry of the first
part is scored), and the -1 sentinel used as sort key does not leak into the
final ranking (the first part is ordered by the actual scores). -/
theorem rank_results_spec (results : List ScanEntry) (top : ℕ) :
    rank_results results top
      = (sortedScored results).take top
        ++ (results.filter (fun r => r.score.isNone)).take 10 ∧
    (sortedScored results).Perm (results.filter (fun r => r.score.isSome)) ∧
    (sortedScored results).Pairwise
      (fun a b => ∀ sa sb, a.score = some sa → b.score = some sb → sb ≤ sa) ∧
    (∀ e ∈ sortedScored results, e.score.isSome) := by
  refine ⟨?_, ?_, ?_, ?_⟩
  · simp only [rank_results, sortedScored]
    rw [sorted_filter_isNone]
  · exact (List.mergeSort_perm results _).filter _
  · have hpw := List.sorted_mergeSort rank_le_trans rank_le_total results
    have hsub := List.filter_sublist (p := fun r : ScanEntry => r.score.isSome)
      (results.mergeSort (fun a b => decide (sort_key b ≤ sort_key a)))
    refine ((hpw.sublist hsub).imp ?_)
    intro a b hab sa sb hsa hsb
    have hka : sort_key a = sa := by
      unfold sort_key
      rw [hsa]
    have hkb : sort_key b = sb := by
      unfold sort_key
      rw [hsb]
    have := of_decide_eq_true hab
    rw [hka, hkb] at this
    exact this
  · intro e he
    exact (List.mem_filter.mp he).2

/-- Counterexample to C9 as stated : when the ATM path succeeds (present iv,
reason null) but the stored realized vol is exactly 0, the gap scorer returns
an absent score while the entry's `reason` stays null — an absent score with
no explanation. -/
theorem scan_entry_rv_zero_null_reason :
    (scan_sp500_entry "T"
      (get_atm_iv_for_ticker (some 100) ["S"]
        [("S", ⟨some (32 / 100), some (51 / 100)⟩)])
      (some 0)).score = none ∧
    (scan_sp500_entry "T"
      (get_atm_iv_for_ticker (some 100) ["S"]
        [("S", ⟨some (32 / 100), some (51 / 100)⟩)])
      (some 0)).reason = none := by
  constructor <;> rfl

/-- C9 (amended) : a scan entry has a null `reason` only when both its iv and
its rv are present, and the only way an entry has an absent score together
with a null reason is `rv = 0` (with iv present); whenever iv or rv is
absent, the entry carries a non-null reason. -/
theorem scan_entry_reason (t : String) (atm : AtmResult) (rv : Option ℚ) :
    ((scan_sp500_entry t atm rv).reason = none →
      (scan_sp500_entry t atm rv).iv.isSome ∧ rv.isSome) ∧
    ((scan_sp500_entry t atm rv).score = none →
      (scan_sp500_entry t atm rv).reason = none → rv = some 0) := by
  rcases hr : atm.reason with _ | r
  · rcases hiv : atm.iv with _ | i
    · constructor
      · intro hnone
        exfalso
        have : (scan_sp500_entry t atm rv).reason = some "missing_rv_or_iv" := by
          simp [scan_sp500_entry, hr, hiv]
        rw [this] at hnone
        exact Option.noConfusion hnone
      · intro _ hnone
        exfalso
        have : (scan_sp500_entry t atm rv).reason = some "missing_rv_or_iv" := by
          simp [scan_sp500_entry, hr, hiv]
        rw [this] at hnone
        exact Option.noConfusion hnone
    · rcases hrv : rv with _ | r0
      · constructor
        · intro hnone
          exfalso
          have : (scan_sp500_entry t atm none).reason = some "missing_rv_or_iv" := by
            simp [scan_sp500_entry, hr, hiv]
          rw [this] at hnone
          exact Option.noConfusion hnone
        · intro _ hnone
          exfalso
          have : (scan_sp500_entry t atm none).reason = some "missing_rv_or_iv" := by
            simp [scan_sp500_entry, hr, hiv]
          rw [this] at hnone
          exact Option.noConfusion hnone
      · constructor
        · intro _
          simp [scan_sp500_entry, hiv]
        · intro hscore _
          have : (scan_sp500_entry t atm (some r0)).score
              = (score_iv_gap (some i) (some r0)).2 := by
            simp [scan_sp500_entry, hiv]
          rw [this] at hscore
          by_cases h0 : r0 = 0
          · rw [h0]
          · exfalso
            rw [show (score_iv_gap (some i) (some r0)).2 = some (i / r0 - 1) from by
              simp [score_iv_gap, h0]] at hscore
            exact Option.noConfusion hscore
  · constructor
    · intro hnone
      exfalso
      have : (scan_sp500_entry t atm rv).reason = some r := by
        simp [scan_sp500_entry, hr]
      rw [this] at hnone
      exact Option.noConfusion hnone
    · intro _ hnone
      exfalso
      have : (scan_sp500_entry t atm rv).reason = some r := by
        simp [scan_sp500_entry, hr]
      rw [this] at hnone
      exact Option.noConfusion hnone

end AnomalyScanner
